import Mathlib

/-!
Shallow embedding of the VierGewinnt (Connect Four) engine from
`viergewinnt.py`, together with theorems checking the specification's
claims about it.

The board is a 6×7 grid of `Int` cell values (row 0 is the top row, as in
the numpy array of the source); `EMPTY = 0`, player 1 owns value `1`,
player 2 owns value `-1`.  Side/player names are modelled by the
two-element type `Side`.  `check_winner`'s three possible Python results
(`None`, a player name, `False`) are modelled by `Option GameResult`
(`none`, `some (.win side)`, `some .draw`).  Exceptions are modelled with
`Except`.  The neural value model is an opaque parameter `vm : Board → ℚ`
(the source's floats are modelled by rationals).
-/

namespace VG

/-- Sentinel move used by the source to denote that no real move exists. -/
def NO_MOVE : Int := -999

/-- The empty cell value of the source. -/
def EMPTY : Int := 0

/-- The two player identities (`player1` holds value `1`, `player2` value `-1`). -/
inductive Side where
  | P1 : Side
  | P2 : Side
deriving DecidableEq, Repr

/-- The per-side cell value assigned by `VierGewinnt.__init__` (`vals = [0, 1, -1]`). -/
def Side.val : Side → Int
  | .P1 => 1
  | .P2 => -1

/-- `VierGewinnt.get_opponent_name`: the other player. -/
def opp : Side → Side
  | .P1 => .P2
  | .P2 => .P1

/-- A decided game: a win for one side, or a draw (the source's `False`). -/
inductive GameResult where
  | win : Side → GameResult
  | draw : GameResult
deriving DecidableEq, Repr

/-- The 6×7 board state (`np.zeros((6, 7))`); row 0 is the top row. -/
def Board : Type := Fin 6 → Fin 7 → Int

instance : DecidableEq Board := by unfold Board; infer_instance

/-- The all-empty starting board of `init_game`. -/
def emptyBoard : Board := fun _ _ => 0

/-- Cell access by natural-number indices; out-of-range reads give `0`.
All uses below stay inside the valid 6×7 range. -/
def cell (s : Board) (r c : Nat) : Int :=
  if hr : r < 6 then if hc : c < 7 then s ⟨r, hr⟩ ⟨c, hc⟩ else 0 else 0

/-- Replace one cell, leaving all others unchanged (the single assignment
`new_state[row, column] = ...` performed on the deep copy). -/
def setCell (s : Board) (r : Fin 6) (c : Fin 7) (v : Int) : Board :=
  fun r' c' => if r' = r ∧ c' = c then v else s r' c'

/-- `(state != EMPTY).all()`: the board has no empty cell. -/
def boardFull (s : Board) : Bool :=
  decide (∀ r : Fin 6, ∀ c : Fin 7, s r c ≠ EMPTY)

/-- Valid-mode convolution hit for the vertical pattern `[[1],[1],[1],[1]]`:
some length-4 vertical window sums to `t`. -/
def vertHit (s : Board) (t : Int) : Bool :=
  decide (∃ r : Fin 3, ∃ c : Fin 7,
    cell s r.val c.val + cell s (r.val + 1) c.val
      + cell s (r.val + 2) c.val + cell s (r.val + 3) c.val = t)

/-- Valid-mode convolution hit for the horizontal pattern `[[1,1,1,1]]`. -/
def horizHit (s : Board) (t : Int) : Bool :=
  decide (∃ r : Fin 6, ∃ c : Fin 4,
    cell s r.val c.val + cell s r.val (c.val + 1)
      + cell s r.val (c.val + 2) + cell s r.val (c.val + 3) = t)

/-- Valid-mode convolution hit for the down-right diagonal pattern
(the 4×4 identity mask, which is invariant under the 180° flip of
`convolve2d`). -/
def diagDRHit (s : Board) (t : Int) : Bool :=
  decide (∃ r : Fin 3, ∃ c : Fin 4,
    cell s r.val c.val + cell s (r.val + 1) (c.val + 1)
      + cell s (r.val + 2) (c.val + 2) + cell s (r.val + 3) (c.val + 3) = t)

/-- Valid-mode convolution hit for the down-left diagonal pattern
(the 4×4 anti-identity mask, also flip-invariant). -/
def diagDLHit (s : Board) (t : Int) : Bool :=
  decide (∃ r : Fin 3, ∃ c : Fin 4,
    cell s r.val (c.val + 3) + cell s (r.val + 1) (c.val + 2)
      + cell s (r.val + 2) (c.val + 1) + cell s (r.val + 3) c.val = t)

/-- One iteration of the `for win_pos in winner_positions` loop of
`check_winner`: `+4` anywhere gives player 1 the win, else `-4` anywhere
gives player 2 the win, else a full board is declared a draw; `none`
means the loop continues with the next pattern. -/
def patStep (s : Board) (hit : Board → Int → Bool) : Option GameResult :=
  if hit s 4 then some (.win .P1)
  else if hit s (-4) then some (.win .P2)
  else if boardFull s then some .draw
  else none

/-- The winner a single pattern yields on its own (`+4` checked before
`-4`), ignoring the full-board draw branch. -/
def patWin (hit : Board → Int → Bool) (s : Board) : Option GameResult :=
  if hit s 4 then some (.win .P1)
  else if hit s (-4) then some (.win .P2)
  else none

/-- `VierGewinnt.check_winner`: the patterns are tried in the fixed order
vertical, horizontal, diagonal down-right, diagonal down-left, and the
loop stops at the first step that breaks. -/
def check_winner (s : Board) : Option GameResult :=
  match patStep s vertHit with
  | some w => some w
  | none =>
  match patStep s horizHit with
  | some w => some w
  | none =>
  match patStep s diagDRHit with
  | some w => some w
  | none =>
  match patStep s diagDLHit with
  | some w => some w
  | none => none

/-- The fixed pattern order of `winner_positions`, indexed. -/
def pats (i : Fin 4) : Board → Int → Bool :=
  if i.val = 0 then vertHit
  else if i.val = 1 then horizHit
  else if i.val = 2 then diagDRHit
  else diagDLHit

/-- `np.sum(state[:, column] == EMPTY)`: number of empty cells in a column. -/
def colEmptyCount (s : Board) (c : Fin 7) : Nat :=
  (Finset.univ.filter (fun r : Fin 6 => s r c = EMPTY)).card

theorem colEmptyCount_le (s : Board) (c : Fin 7) : colEmptyCount s c ≤ 6 := by
  have h := Finset.card_filter_le (Finset.univ : Finset (Fin 6))
    (fun r => s r c = EMPTY)
  simpa [colEmptyCount] using h

/-- Failures of `insert_piece`: `FullColumnException`, plus a marker for
column indices outside `[0, 7)`, which the Python code never receives
from any call site (numpy indexing would wrap or raise there). -/
inductive InsertErr where
  | fullColumn : InsertErr
  | badColumn : InsertErr
deriving DecidableEq, Repr

/-- `VierGewinnt.insert_piece` with an explicit state argument: a `NO_MOVE`
column returns the state unchanged; a full column raises
`FullColumnException`; otherwise the cell at row `count_of_empties - 1`
of the column is set to the mover's value on a fresh copy of the state. -/
def insert_piece (who : Side) (column : Int) (s : Board) : Except InsertErr Board :=
  if column = NO_MOVE then .ok s
  else if hc : 0 ≤ column ∧ column < 7 then
    let c : Fin 7 := ⟨column.toNat, by omega⟩
    if hk : colEmptyCount s c = 0 then .error .fullColumn
    else .ok (setCell s ⟨colEmptyCount s c - 1,
      by have := colEmptyCount_le s c; omega⟩ c who.val)
  else .error .badColumn

/-- `VierGewinnt.get_available_moves` with an explicit state argument:
`[NO_MOVE]` when `check_winner` reports a decided game, otherwise the
ascending list of columns that still have an empty cell
(`np.arange(7)[np.sum(state == EMPTY, axis=0) > 0]`). -/
def get_available_moves (s : Board) : List Int :=
  if check_winner s = none then
    ((List.finRange 7).filter (fun c => decide (0 < colEmptyCount s c))).map
      (fun c => (c.val : Int))
  else [NO_MOVE]

/-- Total wrapper for the inserts performed during tree expansion: those
are only ever applied to moves coming from `get_available_moves`, where
`insert_piece` cannot fail, so the fallback branch is unreachable there. -/
def insertOk (who : Side) (column : Int) (s : Board) : Board :=
  match insert_piece who column s with
  | .ok s' => s'
  | .error _ => s

/-- `DeepAgent.calc_reward`, translated branch for branch: the agent's own
win gives `1`, an undecided winner (`None`) gives `0`, a draw (`False`)
gives `0.5`, and the remaining case — the opponent's name — gives `-1`. -/
def calc_reward (me : Side) (winner : Option GameResult) : ℚ :=
  if winner = some (.win me) then 1
  else if winner = none then 0
  else if winner = some .draw then 1 / 2
  else -1

/-- Leaf scoring inside `calc_move_values`: a leaf keeps the value model's
estimate when `check_winner` is `None`, and is otherwise replaced by
`calc_reward` of the winner (`value if winner is None else
self.calc_reward(winner)`). -/
def leafScore (me : Side) (vm : Board → ℚ) (s : Board) : ℚ :=
  match check_winner s with
  | none => vm s
  | some w => calc_reward me (some w)

/-- Lineage tags: the source concatenates single-digit move strings into a
composite key (`f'{prev_move}{move}'`, with `NO_MOVE` contributing the
empty string); since every real move is a single digit, the key is
faithfully modelled as the list of real moves on the path. -/
abbrev Tag := List Int

/-- One row of the source's `moves_and_temp_states` array: the parent's
tag (column 0), this node's tag (column 1) and this node's state
(column 2). -/
structure Node where
  prev : Tag
  tag : Tag
  state : Board

/-- The row built for one `(prev_move, temp_state)` parent and one of its
moves: tag `f'{prev_move}{move if move != NO_MOVE else ""}'` and state
`insert_piece(name, move, temp_state)`. -/
def mkChild (who : Side) (n : Node) (m : Int) : Node :=
  ⟨n.tag, n.tag ++ (if m = NO_MOVE then [] else [m]), insertOk who m n.state⟩

/-- One expansion ply of `calc_move_values`: every node of the previous
layer is replaced by one row per move in `get_available_moves(temp_state)`. -/
def expandWith (who : Side) (L : List Node) : List Node :=
  L.flatMap (fun n => (get_available_moves n.state).map (mkChild who n))

/-- The first layer of `calc_move_values`:
`[['', f'{move}', insert_piece(self.name, move, state)] for move in moves]`. -/
def rootLevel (me : Side) (state : Board) (moves : List Int) : List Node :=
  moves.map (fun m => ⟨[], [m], insertOk me m state⟩)

/-- The `for i in range(self.iteration - 1)` loop of `calc_move_values`:
each round expands one self ply and one opponent ply, recording the
parent-tag column of each freshly built layer (`self_move_idx` and
`opp_move_idx` entries, in order). -/
def expandRounds (me : Side) : List Node → Nat → List Node × List (List Tag) × List (List Tag)
  | L, 0 => (L, [], [])
  | L, k + 1 =>
    let Ls := expandWith me L
    let Lo := expandWith (opp me) Ls
    let r := expandRounds me Lo k
    (r.1, (Ls.map Node.prev) :: r.2.1, (Lo.map Node.prev) :: r.2.2)

/-- Binary reduction of a group, matching how `np.minimum`/`np.maximum`
fold a group pairwise; the empty case never occurs. -/
def reduce1 (op : ℚ → ℚ → ℚ) : List ℚ → ℚ
  | [] => 0
  | v :: r => r.foldl op v

/-- First-occurrence deduplication of a key column. -/
def firstDedup : List Tag → List Tag
  | [] => []
  | a :: t => a :: (firstDedup t).filter (fun x => x ≠ a)

/-- Modelled from the spec: `groupby_np` (imported from the module
`numpy_groupby`, which is not part of the available sources) groups the
value array by the key array and reduces each group with the supplied
binary operation, producing one value per distinct key; the spec's
reduction step promises exactly one value per original move, in the
order the moves were supplied, so groups are emitted in first-occurrence
order of their keys.  `firstDedup` and `reduce1` are its helpers. -/
def groupReduce (op : ℚ → ℚ → ℚ) (keys : List Tag) (vals : List ℚ) : List ℚ :=
  let pairs := keys.zip vals
  (firstDedup keys).map (fun k =>
    reduce1 op ((pairs.filter (fun p => p.1 = k)).map (fun p => p.2)))

/-- `np.minimum` on rationals. -/
def minQ (a b : ℚ) : ℚ := min a b

/-- `np.maximum` on rationals. -/
def maxQ (a b : ℚ) : ℚ := max a b

/-- The reduction phase of `calc_move_values`: group by the last
opponent-move index with minimum, then walk the recorded index columns
back toward the root, alternating maximum on self-move indices and
minimum on opponent-move indices.  The first argument holds the
opponent-move index columns `[O_1, ..., O_it]`, the second the self-move
index columns `[S_1, ..., S_{it-1}]`; the recursion consumes `O_i`
(minimum) then `S_i` (maximum) outside-in, so the innermost reduction is
by the last opponent column, exactly as the source's loop runs
`i = iteration-2, ..., 0` after the initial `opp_move_idx[-1]` grouping. -/
def reduceAll : List (List Tag) → List (List Tag) → List ℚ → List ℚ
  | [oi], [], vals => groupReduce minQ oi vals
  | oi :: ois, si :: sis, vals => groupReduce minQ oi (groupReduce maxQ si (reduceAll ois sis vals))
  | _, _, vals => vals

/-- `DeepAgent.calc_move_values`: expand one self ply over `moves`, one
opponent ply, then `iteration - 1` further self/opponent rounds; score
the final layer with the value model overridden by `calc_reward` at
decided states; reduce back to one value per first move. -/
def calc_move_values (me : Side) (vm : Board → ℚ) (iteration : Nat)
    (state : Board) (moves : List Int) : List ℚ :=
  let L1 := rootLevel me state moves
  let L2 := expandWith (opp me) L1
  let er := expandRounds me L2 (iteration - 1)
  reduceAll ((L2.map Node.prev) :: er.2.2) er.2.1
    (er.1.map (fun n => leafScore me vm n.state))

/-- The game-theoretic value of a position `p + 1` plies before the leaves
of the search tree, with `who` to move: the reduction of the children's
values by maximum when the searching side moves and by minimum when the
opponent moves, over exactly the moves `get_available_moves` offers
(terminal positions pass through unchanged via `NO_MOVE`).  This is the
reference minimax semantics the claims compare `calc_move_values` to. -/
def nodeVal (me : Side) (vm : Board → ℚ) : Nat → Side → Board → ℚ
  | 0, _, s => leafScore me vm s
  | p + 1, who, s =>
    let cs := (get_available_moves s).map (fun m => nodeVal me vm p (opp who) (insertOk who m s))
    if who = me then reduce1 maxQ cs else reduce1 minQ cs

/-- `FullBoardException`, raised by `DeepAgent.find_move`. -/
inductive FindErr where
  | fullBoard : FindErr
deriving DecidableEq, Repr

/-- `available_moves[move_values == np.max(move_values)]`: the moves whose
value attains the maximum. -/
def bestMoves (avail : List Int) (vals : List ℚ) : List Int :=
  let m := reduce1 maxQ vals
  (avail.zip vals).filterMap (fun p => if p.2 = m then some p.1 else none)

/-- `DeepAgent.find_move`, with its randomness made explicit: `explore`
is the outcome of `random.random() < exp_factor`, and `pick` selects the
element `random.choice` would return (reduced modulo the candidate list
length).  `gameAvail` is the result of the call
`self.game.get_available_moves()` — the owning game's answer for its own
live state; the `state` argument feeds only `calc_move_values`. -/
def find_move (gameAvail : List Int) (state : Board) (me : Side) (vm : Board → ℚ)
    (iteration : Nat) (explore : Bool) (pick : Nat) : Except FindErr Int :=
  let available_moves := gameAvail
  if available_moves.length = 0 then .error .fullBoard
  else if available_moves.length = 1 then .ok (available_moves.getD 0 0)
  else if explore then .ok (available_moves.getD (pick % available_moves.length) 0)
  else
    let move_values := calc_move_values me vm iteration state available_moves
    let best := bestMoves available_moves move_values
    .ok (best.getD (pick % best.length) 0)

/-- `DeepAgent.find_move` for an agent owned by a `VierGewinnt` game whose
live state is `liveState`: the move list comes from the live state, the
`state` argument only from the caller. -/
def find_move_in_game (liveState : Board) (state : Board) (me : Side) (vm : Board → ℚ)
    (iteration : Nat) (explore : Bool) (pick : Nat) : Except FindErr Int :=
  find_move (get_available_moves liveState) state me vm iteration explore pick

/-- The gravity invariant for one column: every cell lying above (smaller
row index than) an empty cell is itself empty, i.e. no empty cell sits
below a occupied one. -/
def colGravity (s : Board) (c : Fin 7) : Prop :=
  ∀ r r' : Fin 6, r.val ≤ r'.val → s r' c = EMPTY → s r c = EMPTY

instance (s : Board) (c : Fin 7) : Decidable (colGravity s c) := by
  unfold colGravity; infer_instance

/-- Board states reachable from the empty board by dropping pieces that
the move generator offers (`NO_MOVE` included, as a no-op). -/
inductive Reachable : Board → Prop where
  | start : Reachable emptyBoard
  | step (s s' : Board) (who : Side) (m : Int) : Reachable s →
      m ∈ get_available_moves s → insert_piece who m s = .ok s' → Reachable s'

/-! ### Basic facts about `check_winner` and `get_available_moves` -/

theorem patStep_ne_none_of_full {s : Board} (h : boardFull s = true)
    (hit : Board → Int → Bool) : patStep s hit ≠ none := by
  unfold patStep
  split_ifs <;> simp_all

theorem patStep_eq_patWin {s : Board} (h : boardFull s = false)
    (hit : Board → Int → Bool) : patStep s hit = patWin hit s := by
  unfold patStep patWin
  split_ifs <;> simp_all

theorem check_winner_ne_none_of_full {s : Board} (h : boardFull s = true) :
    check_winner s ≠ none := by
  unfold check_winner
  rcases hv : patStep s vertHit with _ | w
  · exact absurd hv (patStep_ne_none_of_full h vertHit)
  · simp

theorem not_full_of_check_winner_none {s : Board} (h : check_winner s = none) :
    boardFull s = false := by
  cases hb : boardFull s
  · rfl
  · exact absurd h (check_winner_ne_none_of_full hb)

theorem exists_empty_of_not_full {s : Board} (h : boardFull s = false) :
    ∃ r c, s r c = EMPTY := by
  unfold boardFull at h
  simpa using h

theorem colEmptyCount_pos_iff (s : Board) (c : Fin 7) :
    0 < colEmptyCount s c ↔ ∃ r, s r c = EMPTY := by
  unfold colEmptyCount
  rw [Finset.card_pos]
  constructor
  · rintro ⟨r, hr⟩
    exact ⟨r, (Finset.mem_filter.mp hr).2⟩
  · rintro ⟨r, hr⟩
    exact ⟨r, Finset.mem_filter.mpr ⟨Finset.mem_univ r, hr⟩⟩

theorem colEmptyCount_eq_zero_iff (s : Board) (c : Fin 7) :
    colEmptyCount s c = 0 ↔ ∀ r, s r c ≠ EMPTY := by
  constructor
  · intro h r hr
    have := (colEmptyCount_pos_iff s c).mpr ⟨r, hr⟩
    omega
  · intro h
    by_contra hne
    obtain ⟨r, hr⟩ := (colEmptyCount_pos_iff s c).mp (by omega)
    exact h r hr

theorem avail_undecided {s : Board} (h : check_winner s = none) :
    get_available_moves s
      = ((List.finRange 7).filter (fun c => decide (0 < colEmptyCount s c))).map
          (fun c => (c.val : Int)) := by
  unfold get_available_moves
  rw [if_pos h]

theorem avail_decided {s : Board} (h : check_winner s ≠ none) :
    get_available_moves s = [NO_MOVE] := by
  unfold get_available_moves
  rw [if_neg (by simpa using h)]

theorem avail_ne_nil (s : Board) : get_available_moves s ≠ [] := by
  by_cases h : check_winner s = none
  · rw [avail_undecided h]
    have hnf := not_full_of_check_winner_none h
    obtain ⟨r, c, hrc⟩ := exists_empty_of_not_full hnf
    have hc : c ∈ (List.finRange 7).filter (fun c => decide (0 < colEmptyCount s c)) := by
      rw [List.mem_filter]
      exact ⟨List.mem_finRange c, by
        simp only [decide_eq_true_eq]
        exact (colEmptyCount_pos_iff s c).mpr ⟨r, hrc⟩⟩
    intro hnil
    rw [List.map_eq_nil_iff] at hnil
    rw [hnil] at hc
    exact absurd hc (List.not_mem_nil c)
  · rw [avail_decided h]
    simp

theorem avail_nodup (s : Board) : (get_available_moves s).Nodup := by
  by_cases h : check_winner s = none
  · rw [avail_undecided h]
    refine List.Nodup.map ?_ (List.Nodup.filter _ (List.nodup_finRange 7))
    intro a b hab
    have hab' : ((a.val : Int)) = ((b.val : Int)) := hab
    exact Fin.ext (by exact_mod_cast hab')
  · rw [avail_decided h]
    simp

theorem mem_avail_undecided {s : Board} (h : check_winner s = none) (m : Int) :
    m ∈ get_available_moves s ↔ ∃ c : Fin 7, m = c.val ∧ ∃ r, s r c = EMPTY := by
  rw [avail_undecided h]
  simp only [List.mem_map, List.mem_filter, decide_eq_true_eq]
  constructor
  · rintro ⟨c, ⟨-, hpos⟩, rfl⟩
    exact ⟨c, rfl, (colEmptyCount_pos_iff s c).mp hpos⟩
  · rintro ⟨c, rfl, r, hr⟩
    exact ⟨c, ⟨List.mem_finRange c, (colEmptyCount_pos_iff s c).mpr ⟨r, hr⟩⟩, rfl⟩

theorem no_move_mem_avail {s : Board} (h : NO_MOVE ∈ get_available_moves s) :
    get_available_moves s = [NO_MOVE] := by
  by_cases hw : check_winner s = none
  · exfalso
    obtain ⟨c, hc, -⟩ := (mem_avail_undecided hw NO_MOVE).mp h
    have : (0 : Int) ≤ c.val := by positivity
    rw [← hc] at this
    norm_num [NO_MOVE] at this
  · exact avail_decided hw

theorem insertOk_noMove (who : Side) (s : Board) : insertOk who NO_MOVE s = s := by
  unfold insertOk insert_piece
  simp

/-! ### `insert_piece` and the gravity invariant -/

theorem Side.val_ne_zero (who : Side) : who.val ≠ 0 := by
  cases who <;> simp [Side.val]

theorem card_filter_val_lt (m : Nat) (hm : m ≤ 6) :
    ((Finset.univ : Finset (Fin 6)).filter (fun r => r.val < m)).card = m := by
  interval_cases m <;> decide

theorem gravity_zero_iff {s : Board} {c : Fin 7} (hg : colGravity s c) (r : Fin 6) :
    s r c = EMPTY ↔ r.val < colEmptyCount s c := by
  constructor
  · intro hr
    have hsub : (Finset.univ : Finset (Fin 6)).filter (fun x => x.val < r.val + 1)
        ⊆ (Finset.univ : Finset (Fin 6)).filter (fun x => s x c = EMPTY) := by
      intro x hx
      rw [Finset.mem_filter] at hx ⊢
      exact ⟨hx.1, hg x r (by omega) hr⟩
    have hcard := Finset.card_le_card hsub
    rw [card_filter_val_lt (r.val + 1) (by omega)] at hcard
    unfold colEmptyCount
    omega
  · intro hlt
    by_contra hne
    have hsub : (Finset.univ : Finset (Fin 6)).filter (fun x => s x c = EMPTY)
        ⊆ (Finset.univ : Finset (Fin 6)).filter (fun x => x.val < r.val) := by
      intro x hx
      rw [Finset.mem_filter] at hx ⊢
      refine ⟨hx.1, ?_⟩
      by_contra hge
      exact hne (hg r x (by omega) hx.2)
    have hcard := Finset.card_le_card hsub
    rw [card_filter_val_lt r.val (by omega)] at hcard
    unfold colEmptyCount at hlt
    omega

theorem insert_piece_real_full {who : Side} {s : Board} {c : Fin 7}
    (hc : colEmptyCount s c = 0) :
    insert_piece who (c.val : Int) s = .error .fullColumn := by
  unfold insert_piece
  have h7 : c.val < 7 := c.isLt
  rw [if_neg (by simp only [NO_MOVE]; omega),
    dif_pos (by constructor <;> [positivity; exact_mod_cast h7])]
  have hcc : (⟨((c.val : Int)).toNat, by omega⟩ : Fin 7) = c := by
    apply Fin.ext
    simp
  simp only [hcc]
  rw [dif_pos hc]

theorem insert_piece_real_ok {who : Side} {s : Board} {c : Fin 7}
    (hc : colEmptyCount s c ≠ 0) :
    insert_piece who (c.val : Int) s
      = .ok (setCell s ⟨colEmptyCount s c - 1,
          by have := colEmptyCount_le s c; omega⟩ c who.val) := by
  unfold insert_piece
  have h7 : c.val < 7 := c.isLt
  rw [if_neg (by simp only [NO_MOVE]; omega),
    dif_pos (by constructor <;> [positivity; exact_mod_cast h7])]
  have hcc : (⟨((c.val : Int)).toNat, by omega⟩ : Fin 7) = c := by
    apply Fin.ext
    simp
  simp only [hcc]
  rw [dif_neg hc]

/-- The shapes a successful `insert_piece` can take. -/
theorem insert_piece_ok_cases {who : Side} {col : Int} {s s' : Board}
    (h : insert_piece who col s = .ok s') :
    (col = NO_MOVE ∧ s' = s) ∨
    ∃ c : Fin 7, col = (c.val : Int) ∧ colEmptyCount s c ≠ 0 ∧
      s' = setCell s ⟨colEmptyCount s c - 1,
        by have := colEmptyCount_le s c; omega⟩ c who.val := by
  by_cases h1 : col = NO_MOVE
  · left
    refine ⟨h1, ?_⟩
    unfold insert_piece at h
    rw [if_pos h1] at h
    injection h with h
    exact h.symm
  · right
    by_cases h2 : 0 ≤ col ∧ col < 7
    · have h2' := h2
      obtain ⟨h2a, h2b⟩ := h2'
      set c : Fin 7 := ⟨col.toNat, by omega⟩ with hcdef
      have hval : (c.val : Int) = col := by
        have hv : c.val = col.toNat := rfl
        rw [hv]
        omega
      by_cases h3 : colEmptyCount s c = 0
      · rw [← hval, insert_piece_real_full h3] at h
        cases h
      · rw [← hval, insert_piece_real_ok h3] at h
        injection h with h
        exact ⟨c, hval.symm, h3, h.symm⟩
    · unfold insert_piece at h
      rw [if_neg h1, dif_neg h2] at h
      cases h

theorem insert_preserves_gravity {who : Side} {col : Int} {s s' : Board}
    (hg : ∀ c, colGravity s c) (h : insert_piece who col s = .ok s') :
    ∀ c, colGravity s' c := by
  rcases insert_piece_ok_cases h with ⟨-, rfl⟩ | ⟨c0, -, hk, rfl⟩
  · exact hg
  · intro c r r' hle hr'
    set k := colEmptyCount s c0 with hkdef
    have h6 : k - 1 < 6 := by have := colEmptyCount_le s c0; omega
    by_cases hcc : c = c0
    · subst hcc
      unfold setCell at hr' ⊢
      by_cases hr'top : r' = (⟨k - 1, h6⟩ : Fin 6)
      · rw [if_pos ⟨hr'top, rfl⟩] at hr'
        exact absurd hr' (Side.val_ne_zero who)
      · rw [if_neg (by simp [hr'top])] at hr'
        have hr'lt : r'.val < k := (gravity_zero_iff (hg c) r').mp hr'
        have hr'ne : r'.val ≠ k - 1 := by
          intro hcon
          exact hr'top (Fin.ext hcon)
        have hrlt : r.val < k - 1 := by omega
        rw [if_neg (by
          simp only [not_and]
          intro hcon
          exact absurd (congrArg Fin.val hcon) (by simp; omega))]
        exact (gravity_zero_iff (hg c) r).mpr (by omega)
    · unfold setCell at hr' ⊢
      rw [if_neg (by simp [hcc])] at hr'
      rw [if_neg (by simp [hcc])]
      exact hg c r r' hle hr'

theorem emptyBoard_gravity : ∀ c, colGravity emptyBoard c := by
  intro c r r' _ _
  rfl

theorem reachable_gravity_aux {s : Board} (h : Reachable s) : ∀ c, colGravity s c := by
  induction h with
  | start => exact emptyBoard_gravity
  | step s s' who m _ _ hins ih => exact insert_preserves_gravity ih hins

/-! ### Helpers for the `check_winner` pattern-order claims -/

theorem patWin_none_iff (s : Board) (hit : Board → Int → Bool) :
    patWin hit s = none ↔ hit s 4 = false ∧ hit s (-4) = false := by
  unfold patWin
  split_ifs <;> simp_all

theorem patWin_win1 {s : Board} {hit : Board → Int → Bool} (h : hit s 4 = true) :
    patWin hit s = some (.win .P1) := by
  unfold patWin
  rw [if_pos h]

theorem patStep_win1 {s : Board} {hit : Board → Int → Bool} (h : hit s 4 = true) :
    patStep s hit = some (.win .P1) := by
  unfold patStep
  rw [if_pos h]

theorem patStep_none_of {s : Board} {hit : Board → Int → Bool}
    (h4 : hit s 4 = false) (hm : hit s (-4) = false) (hnf : boardFull s = false) :
    patStep s hit = none := by
  unfold patStep
  rw [h4, hm, hnf]
  simp

theorem check_winner_full_eq {s : Board} (hf : boardFull s = true) :
    check_winner s = patStep s vertHit := by
  obtain ⟨w, hw⟩ := Option.ne_none_iff_exists.mp (patStep_ne_none_of_full hf vertHit)
  unfold check_winner
  rw [← hw]

theorem check_winner_not_full_eq {s : Board} (hnf : boardFull s = false) :
    check_winner s
      = [vertHit, horizHit, diagDRHit, diagDLHit].findSome? (fun hit => patWin hit s) := by
  unfold check_winner
  rw [patStep_eq_patWin hnf vertHit, patStep_eq_patWin hnf horizHit,
    patStep_eq_patWin hnf diagDRHit, patStep_eq_patWin hnf diagDLHit]
  rcases h1 : patWin vertHit s with _ | w1 <;>
    rcases h2 : patWin horizHit s with _ | w2 <;>
    rcases h3 : patWin diagDRHit s with _ | w3 <;>
    rcases h4 : patWin diagDLHit s with _ | w4 <;>
    simp [List.findSome?, h1, h2, h3, h4]

theorem forall_pats_iff (s : Board) :
    (∀ i : Fin 4, patWin (pats i) s = none) ↔
      ∀ hit ∈ [vertHit, horizHit, diagDRHit, diagDLHit], patWin hit s = none := by
  constructor
  · intro h hit hmem
    simp only [List.mem_cons, List.not_mem_nil, or_false] at hmem
    rcases hmem with rfl | rfl | rfl | rfl
    · exact h 0
    · exact h 1
    · exact h 2
    · exact h 3
  · intro h i
    rcases i with ⟨iv, hi⟩
    interval_cases iv
    · exact h vertHit (by simp)
    · exact h horizHit (by simp)
    · exact h diagDRHit (by simp)
    · exact h diagDLHit (by simp)

/-! ### Claim theorems: board operations -/

/-- C8: for every state, inserting with the `NO_MOVE` sentinel as the
column is a no-op: no error is raised and the input state is returned
unchanged. -/
theorem insert_piece_no_move_noop (who : Side) (s : Board) :
    insert_piece who NO_MOVE s = .ok s := by
  unfold insert_piece
  simp

/-- C4: on a gravity-consistent column (the `BoardState` invariant of the
data model), `insert_piece` on a real column fails with
`FullColumnException` exactly when the column has no empty cell, and on
success returns a state identical to the input except that the lowest
empty row of that column (the empty row with no empty cell below it) now
holds the mover's value; the input board is a pure value and is never
modified. -/
theorem insert_piece_spec (who : Side) (s : Board) (c : Fin 7) (hg : colGravity s c) :
    ((∀ r, s r c ≠ EMPTY) → insert_piece who (c.val : Int) s = .error .fullColumn) ∧
    ((∃ r, s r c = EMPTY) →
      ∃ (r : Fin 6) (s' : Board), insert_piece who (c.val : Int) s = .ok s' ∧
        s r c = EMPTY ∧ (∀ r' : Fin 6, r.val < r'.val → s r' c ≠ EMPTY) ∧
        s' r c = who.val ∧
        ∀ (r' : Fin 6) (c' : Fin 7), ¬(r' = r ∧ c' = c) → s' r' c' = s r' c') := by
  constructor
  · intro hfull
    exact insert_piece_real_full ((colEmptyCount_eq_zero_iff s c).mpr hfull)
  · intro hemp
    have hk : colEmptyCount s c ≠ 0 := by
      obtain ⟨r, hr⟩ := hemp
      have := (colEmptyCount_pos_iff s c).mpr ⟨r, hr⟩
      omega
    have h6 : colEmptyCount s c - 1 < 6 := by
      have := colEmptyCount_le s c
      omega
    refine ⟨⟨colEmptyCount s c - 1, h6⟩, _, insert_piece_real_ok hk, ?_, ?_, ?_, ?_⟩
    · exact (gravity_zero_iff hg _).mpr
        (by show colEmptyCount s c - 1 < colEmptyCount s c; omega)
    · intro r' hr' hcon
      have hlt : r'.val < colEmptyCount s c := (gravity_zero_iff hg r').mp hcon
      have hgt : colEmptyCount s c - 1 < r'.val := hr'
      omega
    · unfold setCell
      rw [if_pos ⟨rfl, rfl⟩]
    · intro r' c' hne
      unfold setCell
      rw [if_neg hne]

/-- Witness for C4 at the empty board and column 0. -/
theorem insert_piece_spec_witness :
    ∃ (r : Fin 6) (s' : Board),
      insert_piece Side.P1 (((0 : Fin 7).val : Int)) emptyBoard = .ok s' ∧
      emptyBoard r (0 : Fin 7) = EMPTY ∧
      (∀ r' : Fin 6, r.val < r'.val → emptyBoard r' (0 : Fin 7) ≠ EMPTY) ∧
      s' r (0 : Fin 7) = Side.P1.val ∧
      ∀ (r' : Fin 6) (c' : Fin 7), ¬(r' = r ∧ c' = (0 : Fin 7)) →
        s' r' c' = emptyBoard r' c' :=
  (insert_piece_spec Side.P1 emptyBoard 0 (by decide)).2 ⟨0, rfl⟩

/-- C7: every state reachable from the empty board by generator-approved
drops satisfies the per-column gravity invariant, and every successful
`insert_piece` preserves that invariant. -/
theorem reachable_gravity :
    (∀ s, Reachable s → ∀ c, colGravity s c) ∧
    (∀ (who : Side) (col : Int) (s s' : Board), (∀ c, colGravity s c) →
      insert_piece who col s = .ok s' → ∀ c, colGravity s' c) :=
  ⟨fun _ h => reachable_gravity_aux h, fun _ _ _ _ hg h => insert_preserves_gravity hg h⟩

/-- Witness for C7 at the empty board. -/
theorem reachable_gravity_witness : colGravity emptyBoard (0 : Fin 7) :=
  reachable_gravity.1 emptyBoard Reachable.start (0 : Fin 7)

/-- C3: `get_available_moves` returns `[NO_MOVE]` exactly when
`check_winner` reports the game decided, and otherwise returns exactly
the columns with at least one empty cell, in strictly ascending order. -/
theorem get_available_moves_spec (s : Board) :
    (get_available_moves s = [NO_MOVE] ↔ check_winner s ≠ none) ∧
    (check_winner s = none →
      (∀ m : Int, m ∈ get_available_moves s ↔
        ∃ c : Fin 7, m = (c.val : Int) ∧ ∃ r, s r c = EMPTY) ∧
      List.Sorted (· < ·) (get_available_moves s)) := by
  constructor
  · constructor
    · intro heq hw
      have hmem : NO_MOVE ∈ get_available_moves s := by
        rw [heq]
        simp
      obtain ⟨c, hc, -⟩ := (mem_avail_undecided hw NO_MOVE).mp hmem
      have hpos : (0 : Int) ≤ (c.val : Int) := by positivity
      rw [← hc] at hpos
      norm_num [NO_MOVE] at hpos
    · exact avail_decided
  · intro hw
    refine ⟨mem_avail_undecided hw, ?_⟩
    rw [avail_undecided hw]
    refine List.Pairwise.map _ ?_
      (List.Pairwise.filter _ (List.pairwise_lt_finRange 7))
    intro a b hab
    exact_mod_cast hab

/-- Witness for C3 at the empty board. -/
theorem get_available_moves_spec_witness :
    (3 : Int) ∈ get_available_moves emptyBoard ∧
      List.Sorted (· < ·) (get_available_moves emptyBoard) := by
  have h := (get_available_moves_spec emptyBoard).2 (by decide)
  exact ⟨(h.1 3).mpr ⟨3, by decide, 0, rfl⟩, h.2⟩

/-- C2: `check_winner` examines the patterns in the fixed order vertical,
horizontal, diagonal down-right, diagonal down-left.  On a board that is
not full it returns the first per-pattern winner in that order, or `none`
when no pattern wins.  On a full board the outcome is decided by the
vertical pattern alone — the remaining patterns are never consulted — so
a draw is declared exactly when the vertical pattern yields no win. -/
theorem check_winner_order_spec (s : Board) :
    (boardFull s = true → check_winner s = patStep s vertHit) ∧
    (boardFull s = true → patWin vertHit s = none → check_winner s = some .draw) ∧
    (boardFull s = false →
      check_winner s
        = [vertHit, horizHit, diagDRHit, diagDLHit].findSome? (fun hit => patWin hit s)) ∧
    (check_winner s = none ↔
      boardFull s = false ∧ ∀ i : Fin 4, patWin (pats i) s = none) := by
  refine ⟨fun hf => check_winner_full_eq hf, ?_, fun hnf => check_winner_not_full_eq hnf, ?_⟩
  · intro hf hv
    rw [check_winner_full_eq hf]
    rw [patWin_none_iff] at hv
    unfold patStep
    rw [hv.1, hv.2, hf]
    simp
  · cases hfull : boardFull s
    · rw [check_winner_not_full_eq hfull, forall_pats_iff]
      rw [List.findSome?_eq_none_iff]
      simp
    · constructor
      · intro h
        exact absurd h (check_winner_ne_none_of_full hfull)
      · rintro ⟨h, -⟩
        cases h

/-- Witness for C2 at the empty board: undecided because the board is not
full and no pattern yields a winner. -/
theorem check_winner_order_spec_witness : check_winner emptyBoard = none :=
  (check_winner_order_spec emptyBoard).2.2.2.mpr ⟨by decide, by decide⟩

/-- A full board on which the vertical pattern matches neither side while
the horizontal pattern matches both sides: rows alternate
`1 1 1 1 -1 -1 -1` and `-1 -1 -1 -1 1 1 1`. -/
def cb : Board := fun r c =>
  if r.val % 2 = 0 then (if c.val < 4 then 1 else -1)
  else (if c.val < 4 then -1 else 1)

/-- C10 counterexample: on `cb` both sides have a four-in-a-row, the
earliest pattern matching either side is the horizontal one and it
matches both sides, yet `check_winner` declares a draw rather than a win
for player 1 — the full-board early exit fires at the vertical pattern
first. -/
theorem pattern_priority_counterexample :
    patWin vertHit cb = none ∧
    horizHit cb 4 = true ∧ horizHit cb (-4) = true ∧
    boardFull cb = true ∧
    check_winner cb = some .draw ∧
    check_winner cb ≠ some (.win .P1) := by decide

/-- C10 amended: within each pattern, `+4` (player 1) is tested before
`-4` (player 2); hence whenever the earliest pattern matching either side
matches both sides, player 1 is declared the winner — provided the
full-board draw exit has not fired at an earlier pattern, i.e. the board
still has an empty cell or that earliest pattern is the vertical one. -/
theorem pattern_priority_amended (s : Board) (i : Fin 4)
    (hearlier : ∀ j : Fin 4, j < i → patWin (pats j) s = none)
    (h4 : pats i s 4 = true) (hm4 : pats i s (-4) = true)
    (hexit : boardFull s = false ∨ i = 0) :
    check_winner s = some (.win .P1) := by
  rcases i with ⟨iv, hi⟩
  interval_cases iv
  · have hv : vertHit s 4 = true := h4
    unfold check_winner
    rw [patStep_win1 hv]
  · have hnf : boardFull s = false := by
      rcases hexit with h | h
      · exact h
      · exact absurd (congrArg Fin.val h) (by simp)
    have h0 := (patWin_none_iff s vertHit).mp (hearlier ⟨0, by omega⟩ (Fin.mk_lt_mk.mpr (by omega)))
    have hh : horizHit s 4 = true := h4
    unfold check_winner
    rw [patStep_none_of h0.1 h0.2 hnf, patStep_win1 hh]
  · have hnf : boardFull s = false := by
      rcases hexit with h | h
      · exact h
      · exact absurd (congrArg Fin.val h) (by simp)
    have h0 := (patWin_none_iff s vertHit).mp (hearlier ⟨0, by omega⟩ (Fin.mk_lt_mk.mpr (by omega)))
    have h1 := (patWin_none_iff s horizHit).mp (hearlier ⟨1, by omega⟩ (Fin.mk_lt_mk.mpr (by omega)))
    have hh : diagDRHit s 4 = true := h4
    unfold check_winner
    rw [patStep_none_of h0.1 h0.2 hnf, patStep_none_of h1.1 h1.2 hnf, patStep_win1 hh]
  · have hnf : boardFull s = false := by
      rcases hexit with h | h
      · exact h
      · exact absurd (congrArg Fin.val h) (by simp)
    have h0 := (patWin_none_iff s vertHit).mp (hearlier ⟨0, by omega⟩ (Fin.mk_lt_mk.mpr (by omega)))
    have h1 := (patWin_none_iff s horizHit).mp (hearlier ⟨1, by omega⟩ (Fin.mk_lt_mk.mpr (by omega)))
    have h2 := (patWin_none_iff s diagDRHit).mp (hearlier ⟨2, by omega⟩ (Fin.mk_lt_mk.mpr (by omega)))
    have hh : diagDLHit s 4 = true := h4
    unfold check_winner
    rw [patStep_none_of h0.1 h0.2 hnf, patStep_none_of h1.1 h1.2 hnf,
      patStep_none_of h2.1 h2.2 hnf, patStep_win1 hh]

/-- A sparse board where the vertical pattern matches both sides: four
`1`s in column 0 and four `-1`s in column 1. -/
def wb : Board := fun r c =>
  if c.val = 0 ∧ 2 ≤ r.val then 1 else if c.val = 1 ∧ 2 ≤ r.val then -1 else 0

/-- Witness for the amended C10 on `wb`. -/
theorem pattern_priority_amended_witness : check_winner wb = some (.win .P1) :=
  pattern_priority_amended wb 0 (by decide) (by decide) (by decide) (Or.inr rfl)

/-! ### Grouping lemmas for the reduction phase -/

theorem mem_firstDedup {a : Tag} : ∀ {l : List Tag}, a ∈ firstDedup l → a ∈ l := by
  intro l
  induction l with
  | nil => intro h; cases h
  | cons b t ih =>
    intro h
    unfold firstDedup at h
    rcases List.mem_cons.mp h with rfl | h'
    · exact List.mem_cons_self a t
    · exact List.mem_cons_of_mem b (ih (List.mem_of_mem_filter h'))

theorem firstDedup_filter_of_not_mem {k : Tag} {l : List Tag} (hk : k ∉ l) :
    (firstDedup l).filter (fun x => x ≠ k) = firstDedup l := by
  rw [List.filter_eq_self]
  intro a ha
  have : a ∈ l := mem_firstDedup ha
  simp only [ne_eq, decide_eq_true_eq]
  rintro rfl
  exact hk this

theorem firstDedup_replicate_append {k : Tag} {rest : List Tag} (hk : k ∉ rest) :
    ∀ n : Nat, n ≠ 0 →
      firstDedup (List.replicate n k ++ rest) = k :: firstDedup rest := by
  intro n
  induction n with
  | zero => intro h; cases h rfl
  | succ n ih =>
    intro _
    rw [List.replicate_succ, List.cons_append]
    show k :: (firstDedup (List.replicate n k ++ rest)).filter (fun x => x ≠ k)
      = k :: firstDedup rest
    rcases Nat.eq_zero_or_pos n with rfl | hn
    · simp only [List.replicate_zero, List.nil_append]
      rw [firstDedup_filter_of_not_mem hk]
    · rw [ih (by omega)]
      rw [List.filter_cons_of_neg (by simp)]
      rw [firstDedup_filter_of_not_mem hk]

theorem zip_replicate_self (k : Tag) (l : List ℚ) :
    (List.replicate l.length k).zip l = l.map (fun v => (k, v)) := by
  induction l with
  | nil => rfl
  | cons v t ih =>
    rw [List.length_cons, List.replicate_succ, List.zip_cons_cons, ih, List.map_cons]

/-- `groupReduce` on a block-structured key column: when the values come
in contiguous blocks, one block per key, with pairwise distinct and
nonempty blocks, the result is the blockwise reduction, in block order. -/
theorem groupReduce_blocks (op : ℚ → ℚ → ℚ) :
    ∀ blocks : List (Tag × List ℚ),
      (blocks.map Prod.fst).Nodup → (∀ b ∈ blocks, b.2 ≠ []) →
      groupReduce op (blocks.flatMap (fun b => List.replicate b.2.length b.1))
        (blocks.flatMap (fun b => b.2))
        = blocks.map (fun b => reduce1 op b.2) := by
  intro blocks
  induction blocks with
  | nil => intro _ _; rfl
  | cons b bs ih =>
    intro hnd hne
    obtain ⟨k, vs⟩ := b
    have hvs : vs ≠ [] := hne (k, vs) (List.mem_cons_self _ _)
    have hk_notin : k ∉ bs.flatMap (fun b => List.replicate b.2.length b.1) := by
      intro hmem
      obtain ⟨b', hb', hrep⟩ := List.mem_flatMap.mp hmem
      have hkb : k = b'.1 := (List.mem_replicate.mp hrep).2
      have : k ∈ bs.map Prod.fst := hkb ▸ List.mem_map_of_mem Prod.fst hb'
      exact (List.nodup_cons.mp hnd).1 this
    have hlen : (List.replicate vs.length k).length = vs.length := by
      simp
    unfold groupReduce
    simp only [List.flatMap_cons]
    rw [firstDedup_replicate_append hk_notin vs.length
      (by simpa using hvs)]
    rw [List.zip_append hlen, zip_replicate_self]
    rw [List.map_cons]
    have hhead :
        ((vs.map (fun v => (k, v))
            ++ (bs.flatMap (fun b => List.replicate b.2.length b.1)).zip
                (bs.flatMap (fun b => b.2))).filter (fun p => p.1 = k)).map
          (fun p => p.2) = vs := by
      rw [List.filter_append]
      have h1 : (vs.map (fun v => (k, v))).filter (fun p => p.1 = k)
          = vs.map (fun v => (k, v)) := by
        rw [List.filter_eq_self]
        intro a ha
        obtain ⟨v, -, rfl⟩ := List.mem_map.mp ha
        simp
      have h2 : ((bs.flatMap (fun b => List.replicate b.2.length b.1)).zip
          (bs.flatMap (fun b => b.2))).filter (fun p => p.1 = k) = [] := by
        rw [List.filter_eq_nil_iff]
        intro p hp
        have hfst := (List.of_mem_zip hp).1
        simp only [decide_eq_true_eq]
        intro hcon
        rw [hcon] at hfst
        exact hk_notin hfst
      rw [h1, h2, List.append_nil, List.map_map]
      simp
    rw [hhead]
    congr 1
    have htail : ∀ kk ∈ firstDedup (bs.flatMap (fun b => List.replicate b.2.length b.1)),
        ((vs.map (fun v => (k, v))
            ++ (bs.flatMap (fun b => List.replicate b.2.length b.1)).zip
                (bs.flatMap (fun b => b.2))).filter (fun p => p.1 = kk)).map
          (fun p => p.2)
        = (((bs.flatMap (fun b => List.replicate b.2.length b.1)).zip
            (bs.flatMap (fun b => b.2))).filter (fun p => p.1 = kk)).map
          (fun p => p.2) := by
      intro kk hkk
      have hkkmem := mem_firstDedup hkk
      have hkkne : kk ≠ k := by
        rintro rfl
        exact hk_notin hkkmem
      rw [List.filter_append]
      have h1 : (vs.map (fun v => (k, v))).filter (fun p => p.1 = kk) = [] := by
        rw [List.filter_eq_nil_iff]
        intro p hp
        obtain ⟨v, -, rfl⟩ := List.mem_map.mp hp
        simp only [decide_eq_true_eq]
        exact fun hcon => hkkne hcon.symm
      rw [h1, List.nil_append]
    have hstep :
        (firstDedup (bs.flatMap (fun b => List.replicate b.2.length b.1))).map
          (fun kk => reduce1 op
            (((vs.map (fun v => (k, v))
                ++ (bs.flatMap (fun b => List.replicate b.2.length b.1)).zip
                    (bs.flatMap (fun b => b.2))).filter (fun p => p.1 = kk)).map
              (fun p => p.2)))
        = (firstDedup (bs.flatMap (fun b => List.replicate b.2.length b.1))).map
          (fun kk => reduce1 op
            ((((bs.flatMap (fun b => List.replicate b.2.length b.1)).zip
                (bs.flatMap (fun b => b.2))).filter (fun p => p.1 = kk)).map
              (fun p => p.2))) :=
      List.map_congr_left (fun kk hkk => by rw [htail kk hkk])
    rw [hstep]
    have hgr : (firstDedup (bs.flatMap (fun b => List.replicate b.2.length b.1))).map
          (fun kk => reduce1 op
            ((((bs.flatMap (fun b => List.replicate b.2.length b.1)).zip
                (bs.flatMap (fun b => b.2))).filter (fun p => p.1 = kk)).map
              (fun p => p.2)))
        = groupReduce op (bs.flatMap (fun b => List.replicate b.2.length b.1))
            (bs.flatMap (fun b => b.2)) := rfl
    rw [hgr]
    exact ih (List.nodup_cons.mp hnd).2
      (fun b hb => hne b (List.mem_cons_of_mem _ hb))

theorem groupReduce_expandWith (who : Side) (op : ℚ → ℚ → ℚ) (f : Node → ℚ)
    (L : List Node) (hnd : (L.map Node.tag).Nodup) :
    groupReduce op ((expandWith who L).map Node.prev) ((expandWith who L).map f)
      = L.map (fun n => reduce1 op ((get_available_moves n.state).map
          (fun m => f (mkChild who n m)))) := by
  have hb := groupReduce_blocks op
    (L.map (fun n => (n.tag, (get_available_moves n.state).map (fun m => f (mkChild who n m)))))
    (by
      have h1 : (L.map (fun n =>
          (n.tag, (get_available_moves n.state).map (fun m => f (mkChild who n m))))).map
            Prod.fst = L.map Node.tag := by
        rw [List.map_map]
        rfl
      rw [h1]
      exact hnd)
    (by
      intro b hb
      obtain ⟨n, -, rfl⟩ := List.mem_map.mp hb
      simp only [ne_eq, List.map_eq_nil_iff]
      exact avail_ne_nil n.state)
  have hkeys : (L.map (fun n =>
        (n.tag, (get_available_moves n.state).map (fun m => f (mkChild who n m))))).flatMap
        (fun b => List.replicate b.2.length b.1)
      = (expandWith who L).map Node.prev := by
    unfold expandWith
    rw [List.flatMap_map, List.map_flatMap]
    congr 1
    funext n
    simp only [Function.comp, List.length_map, List.map_map]
    show List.replicate (get_available_moves n.state).length n.tag
      = (get_available_moves n.state).map (fun m => (mkChild who n m).prev)
    have h2 : (fun m => (mkChild who n m).prev) = (fun _ : Int => n.tag) := rfl
    rw [h2, List.map_const']
  have hvals : (L.map (fun n =>
        (n.tag, (get_available_moves n.state).map (fun m => f (mkChild who n m))))).flatMap
        (fun b => b.2)
      = (expandWith who L).map f := by
    unfold expandWith
    rw [List.flatMap_map, List.map_flatMap]
    congr 1
    funext n
    simp only [Function.comp, List.map_map]
    rfl
  rw [hkeys, hvals] at hb
  rw [hb, List.map_map]
  rfl

/-! ### The level invariant of the expansion -/

theorem opp_ne (who : Side) : opp who ≠ who := by
  cases who <;> simp [opp]

theorem opp_opp (who : Side) : opp (opp who) = who := by
  cases who <;> rfl

/-- Invariant of the layer produced after `ℓ` expansion plies: lineage
tags are pairwise distinct, no tag is longer than the ply count, and a
node whose tag is shorter than the ply count has passed through a
`NO_MOVE` and is therefore terminal (its move list is `[NO_MOVE]`). -/
def LevelInv (ℓ : Nat) (L : List Node) : Prop :=
  (L.map Node.tag).Nodup ∧
  ∀ n ∈ L, n.tag.length ≤ ℓ ∧
    (n.tag.length < ℓ → get_available_moves n.state = [NO_MOVE])

theorem mkChild_tag (who : Side) (n : Node) (m : Int) :
    (mkChild who n m).tag = n.tag ++ (if m = NO_MOVE then [] else [m]) := rfl

theorem mkChild_state (who : Side) (n : Node) (m : Int) :
    (mkChild who n m).state = insertOk who m n.state := rfl

theorem not_terminal_tag_len {ℓ : Nat} {L : List Node}
    (hL : LevelInv ℓ L) {n : Node} (hn : n ∈ L) {m : Int}
    (hm : m ∈ get_available_moves n.state) (hreal : m ≠ NO_MOVE) :
    n.tag.length = ℓ := by
  obtain ⟨hle, hlt⟩ := hL.2 n hn
  by_contra hne
  have := hlt (by omega)
  rw [this] at hm
  exact hreal (List.mem_singleton.mp hm)

theorem levelInv_expand (who : Side) {ℓ : Nat} {L : List Node}
    (hL : LevelInv ℓ L) : LevelInv (ℓ + 1) (expandWith who L) := by
  obtain ⟨hnd, hinv⟩ := hL
  constructor
  · show ((expandWith who L).map Node.tag).Nodup
    unfold expandWith
    rw [List.map_flatMap]
    rw [List.nodup_flatMap]
    constructor
    · intro n hn
      show (List.map Node.tag
        (List.map (mkChild who n) (get_available_moves n.state))).Nodup
      rw [List.map_map]
      by_cases hterm : NO_MOVE ∈ get_available_moves n.state
      · rw [no_move_mem_avail hterm]
        simp
      · refine List.Nodup.map_on ?_ (avail_nodup n.state)
        intro x hx y hy hxy
        have hx' : x ≠ NO_MOVE := by
          rintro rfl
          exact hterm hx
        have hy' : y ≠ NO_MOVE := by
          rintro rfl
          exact hterm hy
        simp only [Function.comp] at hxy
        rw [mkChild_tag, mkChild_tag, if_neg hx', if_neg hy'] at hxy
        have := List.append_cancel_left hxy
        simpa using this
    · have hpw : List.Pairwise (fun n1 n2 => n1.tag ≠ n2.tag) L :=
        List.pairwise_map.mp hnd
      refine List.Pairwise.imp_of_mem ?_ hpw
      intro n1 n2 hn1 hn2 hne t ht1 ht2
      simp only [List.map_map] at ht1 ht2
      obtain ⟨m1, hm1, he1⟩ := List.mem_map.mp ht1
      obtain ⟨m2, hm2, he2⟩ := List.mem_map.mp ht2
      simp only [Function.comp] at he1 he2
      rw [mkChild_tag] at he1 he2
      by_cases h1 : m1 = NO_MOVE <;> by_cases h2 : m2 = NO_MOVE
      · rw [if_pos h1, List.append_nil] at he1
        rw [if_pos h2, List.append_nil] at he2
        exact hne (he1.trans he2.symm)
      · -- n1 passes through, n2 plays a real move: lengths clash
        rw [if_pos h1, List.append_nil] at he1
        rw [if_neg h2] at he2
        have hlen2 : n2.tag.length = ℓ := not_terminal_tag_len ⟨hnd, hinv⟩ hn2 hm2 h2
        have hle1 : n1.tag.length ≤ ℓ := (hinv n1 hn1).1
        have : n1.tag.length = n2.tag.length + 1 := by
          rw [he1, ← he2]
          simp
        omega
      · rw [if_neg h1] at he1
        rw [if_pos h2, List.append_nil] at he2
        have hlen1 : n1.tag.length = ℓ := not_terminal_tag_len ⟨hnd, hinv⟩ hn1 hm1 h1
        have hle2 : n2.tag.length ≤ ℓ := (hinv n2 hn2).1
        have : n2.tag.length = n1.tag.length + 1 := by
          rw [he2, ← he1]
          simp
        omega
      · rw [if_neg h1] at he1
        rw [if_neg h2] at he2
        have hlen : n1.tag.length = n2.tag.length := by
          have := congrArg List.length (he1.trans he2.symm)
          simpa using this
        have := (List.append_inj (he1.trans he2.symm) hlen).1
        exact hne this
  · intro nc hnc
    obtain ⟨n, hn, hc⟩ := List.mem_flatMap.mp hnc
    obtain ⟨m, hm, rfl⟩ := List.mem_map.mp hc
    constructor
    · rw [mkChild_tag, List.length_append]
      have := (hinv n hn).1
      split_ifs <;> simp <;> omega
    · intro hlen
      by_cases hno : m = NO_MOVE
      · have hterm : get_available_moves n.state = [NO_MOVE] :=
          no_move_mem_avail (hno ▸ hm)
        rw [mkChild_state, hno, insertOk_noMove]
        exact hterm
      · exfalso
        rw [mkChild_tag, if_neg hno, List.length_append] at hlen
        simp only [List.length_singleton] at hlen
        have := not_terminal_tag_len ⟨hnd, hinv⟩ hn hm hno
        omega

theorem rootLevel_inv (me : Side) (state : Board) {moves : List Int}
    (hnd : moves.Nodup) : LevelInv 1 (rootLevel me state moves) := by
  constructor
  · show ((rootLevel me state moves).map Node.tag).Nodup
    unfold rootLevel
    rw [List.map_map]
    refine List.Nodup.map ?_ hnd
    intro a b hab
    simpa using hab
  · intro n hn
    obtain ⟨m, -, rfl⟩ := List.mem_map.mp hn
    simp

/-! ### The expansion/reduction pipeline computes minimax -/

theorem nodeVal_zero (me : Side) (vm : Board → ℚ) (who : Side) (s : Board) :
    nodeVal me vm 0 who s = leafScore me vm s := rfl

theorem nodeVal_succ (me : Side) (vm : Board → ℚ) (p : Nat) (who : Side) (s : Board) :
    nodeVal me vm (p + 1) who s
      = (if who = me
          then reduce1 maxQ ((get_available_moves s).map
            (fun m => nodeVal me vm p (opp who) (insertOk who m s)))
          else reduce1 minQ ((get_available_moves s).map
            (fun m => nodeVal me vm p (opp who) (insertOk who m s)))) := rfl

/-- Two plies (one opponent move then one own move) of the minimax value,
unfolded. -/
theorem nodeVal_two_step (me : Side) (vm : Board → ℚ) (p : Nat) (s : Board) :
    nodeVal me vm (p + 1 + 1) (opp me) s
      = reduce1 minQ ((get_available_moves s).map
          (fun m => reduce1 maxQ
            ((get_available_moves (insertOk (opp me) m s)).map
              (fun m' => nodeVal me vm p (opp me)
                (insertOk me m' (insertOk (opp me) m s)))))) := by
  rw [nodeVal_succ, if_neg (opp_ne me)]
  congr 1
  apply List.map_congr_left
  intro m _
  rw [opp_opp, nodeVal_succ, if_pos rfl]

/-- Core correctness of the flattened expansion and layered reduction:
starting from any tag-distinct layer `L`, expanding one opponent ply
followed by `k` further self/opponent rounds, scoring the leaves, and
reducing with alternating minimum/maximum yields precisely the minimax
value `2k + 1` plies deep for every node of `L`, in order. -/
theorem reduce_expand (me : Side) (vm : Board → ℚ) :
    ∀ (k : Nat) (L : List Node) (ℓ : Nat), LevelInv ℓ L →
      reduceAll ((expandWith (opp me) L).map Node.prev
          :: (expandRounds me (expandWith (opp me) L) k).2.2)
        (expandRounds me (expandWith (opp me) L) k).2.1
        ((expandRounds me (expandWith (opp me) L) k).1.map
          (fun n => leafScore me vm n.state))
      = L.map (fun n => nodeVal me vm (2 * k + 1) (opp me) n.state) := by
  intro k
  induction k with
  | zero =>
    intro L ℓ hL
    show groupReduce minQ ((expandWith (opp me) L).map Node.prev)
        ((expandWith (opp me) L).map (fun n => leafScore me vm n.state))
      = L.map (fun n => nodeVal me vm (2 * 0 + 1) (opp me) n.state)
    rw [groupReduce_expandWith (opp me) minQ _ L hL.1]
    apply List.map_congr_left
    intro n _
    rw [show (2 : Nat) * 0 + 1 = 0 + 1 from rfl, nodeVal_succ, if_neg (opp_ne me)]
    rfl
  | succ k ih =>
    intro L ℓ hL
    have hL2 : LevelInv (ℓ + 1) (expandWith (opp me) L) := levelInv_expand (opp me) hL
    have hLs : LevelInv (ℓ + 2) (expandWith me (expandWith (opp me) L)) :=
      levelInv_expand me hL2
    show groupReduce minQ ((expandWith (opp me) L).map Node.prev)
        (groupReduce maxQ ((expandWith me (expandWith (opp me) L)).map Node.prev)
          (reduceAll
            ((expandWith (opp me) (expandWith me (expandWith (opp me) L))).map Node.prev
              :: (expandRounds me
                  (expandWith (opp me) (expandWith me (expandWith (opp me) L))) k).2.2)
            (expandRounds me
              (expandWith (opp me) (expandWith me (expandWith (opp me) L))) k).2.1
            ((expandRounds me
                (expandWith (opp me) (expandWith me (expandWith (opp me) L))) k).1.map
              (fun n => leafScore me vm n.state))))
      = L.map (fun n => nodeVal me vm (2 * (k + 1) + 1) (opp me) n.state)
    rw [ih (expandWith me (expandWith (opp me) L)) (ℓ + 2) hLs]
    rw [groupReduce_expandWith me maxQ _ (expandWith (opp me) L) hL2.1]
    rw [groupReduce_expandWith (opp me) minQ _ L hL.1]
    apply List.map_congr_left
    intro n _
    rw [show 2 * (k + 1) + 1 = 2 * k + 1 + 1 + 1 by ring, nodeVal_two_step]
    rfl

/-- `calc_move_values` computes, for every supplied move, the minimax
value of the move's subtree, one value per move, in the order supplied;
only distinctness of the supplied moves is needed. -/
theorem calc_move_values_eq_map (me : Side) (vm : Board → ℚ) (iteration : Nat)
    (state : Board) (moves : List Int) (hnd : moves.Nodup) :
    calc_move_values me vm iteration state moves
      = moves.map (fun m => nodeVal me vm (2 * (iteration - 1) + 1) (opp me)
          (insertOk me m state)) := by
  have h := reduce_expand me vm (iteration - 1) (rootLevel me state moves) 1
    (rootLevel_inv me state hnd)
  unfold calc_move_values
  rw [h]
  unfold rootLevel
  rw [List.map_map]
  rfl

/-- C1: for lookahead depth `iteration ≥ 1` and a nonempty duplicate-free
list of legal first moves, `calc_move_values` returns exactly one value
per supplied move, in the order the moves were supplied, and each value
is the minimax aggregation of the subtree below that move: `2·iteration`
plies are expanded (self, opponent, alternating), leaves are scored by
`leafScore`, and the reduction takes the minimum over the most recent
opponent reply and then alternately the maximum over each self move and
the minimum over each opponent move back to the root — which is exactly
`nodeVal` at `2·iteration − 1` plies with the opponent to move below each
first move. -/
theorem calc_move_values_minimax (me : Side) (vm : Board → ℚ) (iteration : Nat)
    (state : Board) (moves : List Int)
    (hit : 1 ≤ iteration) (hne : moves ≠ []) (hnd : moves.Nodup)
    (hleg : ∀ m ∈ moves, m ∈ get_available_moves state) :
    calc_move_values me vm iteration state moves
      = moves.map (fun m => nodeVal me vm (2 * iteration - 1) (opp me)
          (insertOk me m state)) := by
  rw [calc_move_values_eq_map me vm iteration state moves hnd]
  rw [show 2 * (iteration - 1) + 1 = 2 * iteration - 1 by omega]

/-- Witness for C1: depth-1 lookahead from the empty board on the single
legal move 3. -/
theorem calc_move_values_minimax_witness :
    calc_move_values Side.P1 (fun _ => 0) 1 emptyBoard [3]
      = [3].map (fun m => nodeVal Side.P1 (fun _ => 0) (2 * 1 - 1) (opp Side.P1)
          (insertOk Side.P1 m emptyBoard)) :=
  calc_move_values_minimax Side.P1 (fun _ => 0) 1 emptyBoard [3]
    (by decide) (by decide) (by decide)
    (by
      intro m hm
      rw [List.mem_singleton.mp hm]
      decide)

/-- C6: inside `calc_move_values` every decided leaf is scored with the
fixed terminal reward from the moving side's perspective — `1` for the
mover's win, `1/2` for a draw, `-1` for the opponent's win — and every
undecided leaf is scored with the external value model's estimate. -/
theorem leaf_scoring_spec (me : Side) (vm : Board → ℚ) (s : Board) :
    (check_winner s = some (.win me) → leafScore me vm s = 1) ∧
    (check_winner s = some .draw → leafScore me vm s = 1 / 2) ∧
    (check_winner s = some (.win (opp me)) → leafScore me vm s = -1) ∧
    (check_winner s = none → leafScore me vm s = vm s) := by
  refine ⟨?_, ?_, ?_, ?_⟩ <;> intro h <;> unfold leafScore <;> rw [h]
  · unfold calc_reward
    simp
  · unfold calc_reward
    simp
  · unfold calc_reward
    simp [opp_ne me]

/-- A board with a vertical four-in-a-row for player 1 in column 3. -/
def vb1 : Board := fun r c => if c.val = 3 ∧ 2 ≤ r.val then 1 else 0

/-- Witness for C6 on a decided board: a win of the moving side scores 1. -/
theorem leaf_scoring_spec_witness : leafScore Side.P1 (fun _ => 0) vb1 = 1 :=
  (leaf_scoring_spec Side.P1 (fun _ => 0) vb1).1 (by decide)

/-- C5: when the owning game's move generator hands `find_move` an empty
move list (which only the featureless base `Game` generator produces —
`VierGewinnt.get_available_moves` returns `[NO_MOVE]`, never `[]`, on a
decided board), `find_move` raises `FullBoardException` instead of
returning a move. -/
theorem find_move_empty_moves (state : Board) (me : Side) (vm : Board → ℚ)
    (iteration : Nat) (explore : Bool) (pick : Nat) :
    find_move [] state me vm iteration explore pick = .error .fullBoard := rfl

/-! ### `find_move` draws its move set from the live game state -/

theorem foldl_maxQ_mem (l : List ℚ) : ∀ v : ℚ, l.foldl maxQ v ∈ v :: l := by
  induction l with
  | nil =>
    intro v
    simp
  | cons a t ih =>
    intro v
    rw [List.foldl_cons]
    rcases List.mem_cons.mp (ih (maxQ v a)) with h1 | h1
    · rw [h1]
      rcases le_total v a with hle | hle
      · have h2 : maxQ v a = a := by
          unfold maxQ
          exact max_eq_right hle
        rw [h2]
        exact List.mem_cons_of_mem _ (List.mem_cons_self _ _)
      · have h2 : maxQ v a = v := by
          unfold maxQ
          exact max_eq_left hle
        rw [h2]
        exact List.mem_cons_self _ _
    · exact List.mem_cons_of_mem _ (List.mem_cons_of_mem _ h1)

theorem reduce1_maxQ_mem {l : List ℚ} (h : l ≠ []) : reduce1 maxQ l ∈ l := by
  cases l with
  | nil => exact absurd rfl h
  | cons v r => exact foldl_maxQ_mem r v

theorem bestMoves_subset {avail : List Int} {vals : List ℚ} {x : Int}
    (h : x ∈ bestMoves avail vals) : x ∈ avail := by
  unfold bestMoves at h
  obtain ⟨p, hp, hcond⟩ := List.mem_filterMap.mp h
  obtain ⟨a, b⟩ := p
  split_ifs at hcond
  injection hcond with h1
  rw [← h1]
  exact (List.of_mem_zip hp).1

/-- On a nonempty duplicate-free move list, `find_move` always succeeds
and the chosen move belongs to that list. -/
theorem find_move_mem (avail : List Int) (hne : avail ≠ []) (hnd : avail.Nodup)
    (state : Board) (me : Side) (vm : Board → ℚ) (iteration : Nat)
    (explore : Bool) (pick : Nat) :
    ∃ m, find_move avail state me vm iteration explore pick = .ok m ∧ m ∈ avail := by
  unfold find_move
  have hlen : ¬ avail.length = 0 := by
    simpa using hne
  rw [if_neg hlen]
  by_cases h1 : avail.length = 1
  · rw [if_pos h1]
    refine ⟨avail.getD 0 0, rfl, ?_⟩
    rw [List.getD_eq_getElem avail 0 (by omega)]
    exact List.getElem_mem _
  · rw [if_neg h1]
    by_cases hexp : explore = true
    · rw [if_pos hexp]
      have hlt : pick % avail.length < avail.length := Nat.mod_lt _ (by omega)
      refine ⟨_, rfl, ?_⟩
      rw [List.getD_eq_getElem avail 0 hlt]
      exact List.getElem_mem _
    · rw [if_neg hexp]
      have hlenv : (calc_move_values me vm iteration state avail).length
          = avail.length := by
        rw [calc_move_values_eq_map me vm iteration state avail hnd, List.length_map]
      have hvne : calc_move_values me vm iteration state avail ≠ [] := by
        intro hcon
        rw [hcon] at hlenv
        simp only [List.length_nil] at hlenv
        omega
      obtain ⟨i, hi, hgi⟩ :=
        List.mem_iff_getElem.mp (reduce1_maxQ_mem hvne)
      have hib : i < avail.length := by omega
      have hzlen : i < (avail.zip (calc_move_values me vm iteration state avail)).length := by
        rw [List.length_zip]
        omega
      have hbmem : avail.get ⟨i, hib⟩
          ∈ bestMoves avail (calc_move_values me vm iteration state avail) := by
        unfold bestMoves
        apply List.mem_filterMap.mpr
        refine ⟨(avail.zip (calc_move_values me vm iteration state avail)).get ⟨i, hzlen⟩,
          List.get_mem _ _ _, ?_⟩
        have hgz : (avail.zip (calc_move_values me vm iteration state avail)).get ⟨i, hzlen⟩
            = (avail.get ⟨i, hib⟩, (calc_move_values me vm iteration state avail).get ⟨i, hi⟩) := by
          simp [List.getElem_zip]
        rw [hgz]
        have hval : (calc_move_values me vm iteration state avail).get ⟨i, hi⟩
            = reduce1 maxQ (calc_move_values me vm iteration state avail) := by
          simpa using hgi
        simp only [hval]
        simp
      have hbne : bestMoves avail (calc_move_values me vm iteration state avail) ≠ [] := by
        intro hcon
        rw [hcon] at hbmem
        exact absurd hbmem (List.not_mem_nil _)
      have hblt : pick % (bestMoves avail (calc_move_values me vm iteration state avail)).length
          < (bestMoves avail (calc_move_values me vm iteration state avail)).length := by
        apply Nat.mod_lt
        rcases Nat.eq_zero_or_pos (bestMoves avail (calc_move_values me vm iteration state avail)).length with hz | hp
        · exact absurd (List.length_eq_zero.mp hz) hbne
        · exact hp
      refine ⟨_, rfl, ?_⟩
      apply bestMoves_subset
      rw [List.getD_eq_getElem _ 0 hblt]
      exact List.getElem_mem _

/-- C9: `DeepAgent.find_move` enumerates its candidate moves from the
owning game's current live state (it calls `get_available_moves` with no
state argument); the `state` argument only influences the valuation.
Hence whatever state argument is passed, the returned move always comes
from the live state's move list, success does not depend on the state
argument, and during exploration the result is entirely independent of
it. -/
theorem find_move_live_state (liveState s1 s2 : Board) (me : Side) (vm : Board → ℚ)
    (iteration : Nat) (pick : Nat) :
    (∀ (explore : Bool) (m : Int),
      find_move_in_game liveState s1 me vm iteration explore pick = .ok m →
        m ∈ get_available_moves liveState) ∧
    (∀ explore : Bool,
      (find_move_in_game liveState s1 me vm iteration explore pick).isOk
        = (find_move_in_game liveState s2 me vm iteration explore pick).isOk) ∧
    (find_move_in_game liveState s1 me vm iteration true pick
      = find_move_in_game liveState s2 me vm iteration true pick) := by
  refine ⟨?_, ?_, ?_⟩
  · intro explore m hm
    obtain ⟨m', hm', hmem⟩ := find_move_mem (get_available_moves liveState)
      (avail_ne_nil liveState) (avail_nodup liveState) s1 me vm iteration explore pick
    unfold find_move_in_game at hm
    rw [hm] at hm'
    injection hm' with h
    rw [h]
    exact hmem
  · intro explore
    obtain ⟨m1, h1, -⟩ := find_move_mem (get_available_moves liveState)
      (avail_ne_nil liveState) (avail_nodup liveState) s1 me vm iteration explore pick
    obtain ⟨m2, h2, -⟩ := find_move_mem (get_available_moves liveState)
      (avail_ne_nil liveState) (avail_nodup liveState) s2 me vm iteration explore pick
    unfold find_move_in_game
    rw [h1, h2]
    rfl
  · by_cases h0 : (get_available_moves liveState).length = 0
    · unfold find_move_in_game find_move
      rw [if_pos h0, if_pos h0]
    · by_cases h1 : (get_available_moves liveState).length = 1
      · unfold find_move_in_game find_move
        rw [if_neg h0, if_neg h0, if_pos h1, if_pos h1]
      · unfold find_move_in_game find_move
        rw [if_neg h0, if_neg h0, if_neg h1, if_neg h1, if_pos rfl, if_pos rfl]

/-- Witness for C9: two exploring calls on the same live game with
different state arguments return the same move. -/
theorem find_move_live_state_witness :
    find_move_in_game emptyBoard emptyBoard Side.P1 (fun _ => 0) 1 true 0
      = find_move_in_game emptyBoard cb Side.P1 (fun _ => 0) 1 true 0 :=
  (find_move_live_state emptyBoard emptyBoard cb Side.P1 (fun _ => 0) 1 0).2.2

end VG
